import Mathlib

/-!
Verification development for the algorithmic core of the `shorter` video
editing assistant: the interval timeline compiler and silence adapter
(`src/shorter/core/video_utils.py`), the word timing normalizer and the
caption layout engine (`src/shorter/utils/examples/example_captioning.py`).

Modelling conventions.  Python floats are modelled as exact rationals
(`ℚ`): every operation the code performs on them (addition, subtraction,
comparison) is modelled exactly.  The transcendental `math.log(n, 8)` of
the timing normalizer is modelled over the reals with `Real.logb`.
Subprocess plumbing is out of scope; what the code hands to the external
filter executor is modelled as data (lists of interval endpoints) rather
than as the rendered ffmpeg expression string.
-/

/-! ### Interval timeline compiler (`video_utils.remove_chunks`, lines 179-187)

Python: `sorted(chunks_to_remove)` sorts pairs lexicographically.  The
loop `for start, end in sorted(...)` appends `between(t,last_end,start)`
for every pair, then sets `last_end = end`; after the loop it appends
`gte(t,last_end)`.  We model the emitted expression as the list of
`between` endpoint pairs together with the final `gte` threshold. -/

/-- Lexicographic order on pairs, as used by Python's `sorted` on 2-tuples. -/
def pairLE (a b : ℚ × ℚ) : Prop :=
  a.1 < b.1 ∨ (a.1 = b.1 ∧ a.2 ≤ b.2)

instance : DecidableRel pairLE := fun a b =>
  inferInstanceAs (Decidable (a.1 < b.1 ∨ (a.1 = b.1 ∧ a.2 ≤ b.2)))

instance : IsTotal (ℚ × ℚ) pairLE :=
  ⟨fun a b => by
    rcases lt_trichotomy a.1 b.1 with h | h | h
    · exact Or.inl (Or.inl h)
    · rcases le_total a.2 b.2 with h2 | h2
      · exact Or.inl (Or.inr ⟨h, h2⟩)
      · exact Or.inr (Or.inr ⟨h.symm, h2⟩)
    · exact Or.inr (Or.inl h)⟩

instance : IsTrans (ℚ × ℚ) pairLE :=
  ⟨fun a b c hab hbc => by
    rcases hab with h1 | ⟨h1, h1'⟩ <;> rcases hbc with h2 | ⟨h2, h2'⟩
    · exact Or.inl (h1.trans h2)
    · exact Or.inl (h2 ▸ h1)
    · exact Or.inl (h1 ▸ h2)
    · exact Or.inr ⟨h1.trans h2, h1'.trans h2'⟩⟩

/-- `sorted(chunks_to_remove)`: Python's sort on tuples of floats.
`pairLE` is a total antisymmetric order, so any sorted permutation is
unique; we use insertion sort. -/
def sortChunks (l : List (ℚ × ℚ)) : List (ℚ × ℚ) :=
  List.insertionSort pairLE l

/-- The cursor fold of `remove_chunks` / `remove_silence`: for each
`(start, end)` pair in order emit the pair `(last_end, start)` (the
`between(t,last_end,start)` term) and set `last_end := end`.  Returns the
emitted pairs and the final `last_end` (the `gte(t,last_end)` threshold). -/
def compileGo : ℚ → List (ℚ × ℚ) → List (ℚ × ℚ) × ℚ
  | c, [] => ([], c)
  | c, (s, e) :: rest =>
    let r := compileGo e rest
    ((c, s) :: r.1, r.2)

/-- The full compilation step of `remove_chunks` (sort, then cursor fold
starting at `last_end = 0.0`). -/
def compileChunks (chunks : List (ℚ × ℚ)) : List (ℚ × ℚ) × ℚ :=
  compileGo 0 (sortChunks chunks)

/-- What the surrounding function does with the input: either copy it
unchanged (no filter invocation) or run the filter executor on the
compiled select expression. -/
inductive MediaAction where
  | copy : MediaAction
  | filter : List (ℚ × ℚ) → ℚ → MediaAction
deriving DecidableEq

/-- `remove_chunks` (lines 172-187): empty chunk list short-circuits to a
plain copy; otherwise the compiled select filter is applied. -/
def remove_chunks_plan (chunks : List (ℚ × ℚ)) : MediaAction :=
  if chunks = [] then .copy
  else .filter (compileChunks chunks).1 (compileChunks chunks).2

/-! ### Silence detector adapter (`video_utils.remove_silence`, lines 102-136) -/

/-- The padding step for one matched `(silence_start, silence_end)` pair
(lines 113-118): the pair becomes a removal candidate
`(start + padding, end - padding)` exactly when `end - start > 2*padding`. -/
def candidateOf (padding : ℚ) (p : ℚ × ℚ) : Option (ℚ × ℚ) :=
  if p.2 - p.1 > 2 * padding then some (p.1 + padding, p.2 - padding) else none

/-- All removal candidates surviving the padding filter, in order. -/
def silenceCandidates (pairs : List (ℚ × ℚ)) (padding : ℚ) : List (ℚ × ℚ) :=
  pairs.filterMap (candidateOf padding)

/-- `remove_silence` (lines 102-144): parsed `silence_start`/`silence_end`
marker lists are paired positionally (`zip`, truncating to the shorter);
no starts, or no candidates surviving padding, short-circuits to a copy;
otherwise the same sort-and-cursor compilation as `remove_chunks` runs. -/
def remove_silence_plan (starts ends : List ℚ) (padding : ℚ) : MediaAction :=
  if starts = [] then .copy
  else
    let cands := silenceCandidates (starts.zip ends) padding
    if cands = [] then .copy
    else .filter (compileChunks cands).1 (compileChunks cands).2

/-! ### Keep-segment membership

The spec's data model reads the emitted `between(t,lo,hi)` keep-segments
and the removal intervals as half-open ranges `[lo, hi)`, and the trailing
`gte(t,lo)` as `[lo, +∞)`.  The coverage claim is stated in that reading. -/

/-- Half-open membership `lo ≤ t < hi` in an interval pair. -/
def segMem (t : ℚ) (p : ℚ × ℚ) : Bool :=
  decide (p.1 ≤ t ∧ t < p.2)

/-- Number of emitted keep-segments (bounded ones plus the trailing
`gte`) of a compiled output that contain time `t`. -/
def keptCount (t : ℚ) (out : List (ℚ × ℚ) × ℚ) : ℕ :=
  out.1.countP (segMem t) + (if out.2 ≤ t then 1 else 0)

/-- Number of removal intervals of `chunks` containing time `t`
(half-open reading). -/
def removalCount (t : ℚ) (chunks : List (ℚ × ℚ)) : ℕ :=
  chunks.countP (segMem t)

/-! ### Font auto-fit loop (`example_captioning._create_font_autoresize`,
lines 210-231)

Python: `for i in range(10, -1, -1)` tries modifiers `i/10` from `1.0`
down to `0.0`, building a text clip with `font_size = size * (i/10)` and
breaking as soon as its measured width is `< max_width`; if no modifier
fits, the clip built at modifier `0.0` (font size `0`) is returned.  The
text measurement collaborator (`TextClip`) is a parameter `measureW`
mapping the attempted font size to the measured width. -/

/-- One pass of the shrink loop over the remaining modifier numerators
(`[10, 9, ..., 0]`): return the first font size `size * i / 10` whose
measured width is below `maxWidth`, or the last attempted size. -/
def autoresizeLoop (measureW : ℚ → ℚ) (size maxWidth : ℚ) : List ℕ → ℚ
  | [] => 0
  | [i] => size * i / 10
  | i :: rest =>
    if measureW (size * i / 10) < maxWidth then size * i / 10
    else autoresizeLoop measureW size maxWidth rest

/-- The font size of the clip returned by `_create_font_autoresize`. -/
def autoresizeFS (measureW : ℚ → ℚ) (size maxWidth : ℚ) : ℚ :=
  autoresizeLoop measureW size maxWidth [10, 9, 8, 7, 6, 5, 4, 3, 2, 1, 0]

/-! ### Theorems -/

/-! ### Coverage of the compiled timeline (claim C3) -/

/-- Two intervals do not overlap (half-open reading). -/
def intervalDisjoint (a b : ℚ × ℚ) : Prop := a.2 ≤ b.1 ∨ b.2 ≤ a.1

instance : DecidableRel intervalDisjoint := fun a b =>
  inferInstanceAs (Decidable (a.2 ≤ b.1 ∨ b.2 ≤ a.1))

/-- `a` ends no later than `b` starts. -/
def ordSep (a b : ℚ × ℚ) : Prop := a.2 ≤ b.1

/-! ### Word timing normalizer (`example_captioning._word_timing_adjusted`,
lines 146-155)

Python: `max_duration = math.log(len(word["word"]), 8)`; if
`end - start > max_duration` the start is replaced by
`end - max_duration`, else kept.  `math.log(n, 8)` is modelled exactly as
`Real.logb 8 n`; the model covers word lengths `≥ 1` (on the empty string
Python's `math.log(0, 8)` raises a `ValueError`). -/

/-- `_word_timing_adjusted`: returns the (possibly corrected) start and
the unchanged end, for a word of `wordLen` characters. -/
noncomputable def wordTimingAdjusted (wordLen : ℕ) (start stop : ℝ) : ℝ × ℝ :=
  if stop - start > Real.logb 8 wordLen then (stop - Real.logb 8 wordLen, stop)
  else (start, stop)

/-! ### Hyphen-fragment merging (`example_captioning.caption_video`,
caption type 2, lines 297-309)

Python mutates the transcription in place:
```
for i, word in enumerate(transcription):
    if i == 0: continue
    p_word = transcription[i - 1]
    if word["word"].startswith("-"):
        p_word["word"] = p_word["word"] + word["word"]
        p_word["end"] = word["end"]
        words_to_delete.append(word)
for word in words_to_delete:
    transcription.remove(word)
```
Index `j` is only ever written at iteration `j + 1`, and iteration `i`
reads indices `i` and `i - 1` before either is written, so the mutation
phase is a pointwise map over the ORIGINAL record values: entry `j`
becomes the concatenation-merge with entry `j + 1` when entry `j + 1`
starts with `"-"`.  The second phase calls `list.remove`, which deletes
the FIRST element comparing equal (by record value) to each marked
record's post-mutation value. -/

/-- A transcription record (`word`, `start`, `end`, `probability`). -/
structure TWord where
  text : String
  start : ℚ
  stop : ℚ
  prob : ℚ
deriving DecidableEq

/-- `word["word"].startswith("-")`. -/
def hyphB (w : TWord) : Bool :=
  match w.text.data with
  | [] => false
  | c :: _ => c == '-'

/-- The in-place merge applied to a predecessor record: concatenated
text, end replaced by the hyphen word's end; start and probability
unchanged. -/
def mergedPair (w x : TWord) : TWord :=
  ⟨w.text ++ x.text, w.start, x.stop, w.prob⟩

/-- The post-mutation value of a record, given the records following it:
merged with its immediate successor exactly when that successor starts
with `"-"`. -/
def emitVal (w : TWord) : List TWord → TWord
  | [] => w
  | x :: _ => if hyphB x then mergedPair w x else w

/-- The mutation phase: every record's post-mutation value, in order. -/
def phase1 : List TWord → List TWord
  | [] => []
  | w :: rest => emitVal w rest :: phase1 rest

/-- Post-mutation values of the marked (hyphen-starting) records of a
suffix, in order of appearance. -/
def markedTail : List TWord → List TWord
  | [] => []
  | w :: rest =>
    if hyphB w then emitVal w rest :: markedTail rest else markedTail rest

/-- `words_to_delete` as record values: hyphen-starting records at
indices `≥ 1` (the first record is skipped by `if i == 0: continue`). -/
def markedOf : List TWord → List TWord
  | [] => []
  | _ :: rest => markedTail rest

/-- The full hyphen-merge preprocessing of caption type 2: the mutation
phase followed by `transcription.remove(word)` for each marked record —
each `remove` deletes the first value-equal occurrence. -/
def mergeHyphens (l : List TWord) : List TWord :=
  (markedOf l).foldl List.erase (phase1 l)

/-- The transformation as the claim words it (refinement model, stated
from the claim, for comparison with `mergeHyphens`): every word after
the first whose text begins with `"-"` is removed; each predecessor of
such a word gets the concatenated text and the removed word's end time;
all other words are unchanged and keep their relative order. -/
def specMergeTail : List TWord → List TWord
  | [] => []
  | w :: rest =>
    if hyphB w then specMergeTail rest else emitVal w rest :: specMergeTail rest

/-- The claim-side transformation (see `specMergeTail`): the first word
is always kept (merged if its successor is a hyphen fragment); among the
rest, hyphen-starting words are dropped and the others keep their
post-merge values in order. -/
def specMerge : List TWord → List TWord
  | [] => []
  | w :: rest => emitVal w rest :: specMergeTail rest

/-! ### Caption layout engine, multi-line emphasis policy
(`example_captioning.caption_video`, caption type 2, lines 311-392)

The loop state is `(x, y, current_line, new_font_size, text_clips)` plus
the stream of `random.random()` draws consumed by `_new_font_size`
(modelled as `rand : ℕ → ℚ` with a cursor `k` counting the draws made so
far, so the ambient randomness becomes an explicit seeded source).  The
text-metrics collaborator (`TextClip` inside
`_create_font_autoresize`) is the parameter `measure`, mapping a text
and an attempted font size to the rendered clip's `(width, height)`;
the timing correction `_word_timing_adjusted` (see
`wordTimingAdjusted`) is abstracted as the parameter `adj` giving each
word's adjusted start, since its log-based value is irrational while the
layout arithmetic itself is exact. -/

/-- A positioned text clip of the current screen, awaiting its
visible-until time. -/
structure PClip where
  text : String
  px : ℚ
  py : ℚ
  tstart : ℚ
  w : ℚ
  h : ℚ
deriving DecidableEq

/-- A finished caption fragment: positioned clip plus its visible
duration (`with_duration`). -/
structure Frag where
  text : String
  px : ℚ
  py : ℚ
  tstart : ℚ
  dur : ℚ
deriving DecidableEq

/-- Inputs of one captioning run: the transcription, the caption box
width/height, the box position, the video duration, the three font
sizes `fonts[0..2]`, the metrics collaborator and the timing adjuster. -/
structure LParams where
  words : List TWord
  width : ℚ
  height : ℚ
  xpos : ℚ
  ypos : ℚ
  dur : ℚ
  f0 : ℚ
  f1 : ℚ
  f2 : ℚ
  measure : String → ℚ → ℚ × ℚ
  adj : TWord → ℚ

/-- Loop state: cursor position, current font size, the open screen's
clips, the emitted fragments, and the number of random draws consumed. -/
structure LState where
  x : ℚ
  y : ℚ
  fs : ℚ
  line : List PClip
  out : List Frag
  k : ℕ
deriving DecidableEq

/-- The stop-word set `AVOID_LIST` (duplicates of the Python set literal
kept; membership is what matters). -/
def avoidList : List String :=
  ["a", "about", "all", "an", "and", "are", "as", "at", "be", "been",
   "but", "by", "can", "could", "came", "come", "did", "do", "does",
   "for", "from", "had", "has", "have", "he", "her", "here", "him",
   "his", "how", "if", "in", "into", "is", "it", "its", "like", "me",
   "more", "my", "no", "not", "of", "on", "one", "or", "our", "out",
   "she", "should", "so", "some", "than", "that", "the", "their",
   "them", "then", "there", "these", "they", "this", "those", "to",
   "too", "up", "us", "was", "we", "were", "what", "when", "where",
   "which", "who", "will", "with", "would", "you", "your", "am", "go",
   "i"]

/-- `word.lower().replace(".", "").replace(",", "")`. -/
def cleanWord (t : String) : String :=
  ⟨(t.data.map Char.toLower).filter fun c => !(c == '.' || c == ',')⟩

/-- `text.strip()`: drop leading and trailing whitespace. -/
def trimStr (s : String) : String :=
  ⟨((s.data.dropWhile Char.isWhitespace).reverse.dropWhile
    Char.isWhitespace).reverse⟩

/-- `_new_font_size` (lines 325-331): a biased three-way choice on one
`random.random()` draw `r`, preferring the small sizes for stop words. -/
def newFontSize (P : LParams) (text : String) (r : ℚ) : ℚ :=
  if cleanWord text ∈ avoidList then
    if r < 6 / 10 then P.f0 else P.f1
  else
    if r < 4 / 10 then P.f0 else if r < 65 / 100 then P.f1 else P.f2

/-- `_create_font_autoresize(fs, text, P.width)` as seen by the layout
loop: the `(width, height)` of the clip built at the auto-fitted font
size. -/
def fitClip (P : LParams) (fs : ℚ) (text : String) : ℚ × ℚ :=
  P.measure text (autoresizeFS (fun f => (P.measure text f).1) fs P.width)

/-- `_place_current_line(line, end_time, lag)` (lines 340-351): each
clip of the outgoing screen becomes a fragment visible from its own
start until `end_time + 0.5 + lag` (duration
`end_time - clip.start + 0.5 + lag`). -/
def placeLine (line : List PClip) (endT lag : ℚ) : List Frag :=
  line.map fun c => ⟨c.text, c.px, c.py, c.tstart, endT - c.tstart + 1 / 2 + lag⟩

/-- The default transcription record used for out-of-range `getD`
lookups (never reached on in-range indices). -/
def dfltW : TWord := ⟨"", 0, 0, 0⟩

/-- Default clip for `headD` projections. -/
def dfltClip : PClip := ⟨"", 0, 0, 0, 0, 0⟩

/-- The previous word's end as the loop reads it
(`_word_timing_adjusted(p_word)` leaves the end unchanged). -/
def prevEnd (P : LParams) (i : ℕ) : ℚ :=
  (P.words.getD (i - 1) (P.words.getD i dfltW)).stop

/-- Horizontal-overflow handling (lines 364-368): when the clip would
exceed the box width, move to the next line (`y += clip.h + 5`,
`x = 0`), draw a fresh font size (one random draw) and rebuild the
clip. -/
def wrapPhase (P : LParams) (rand : ℕ → ℚ) (text : String) (st : LState)
    (c0 : ℚ × ℚ) : LState × (ℚ × ℚ) :=
  if st.x + c0.1 > P.width then
    let f := newFontSize P text (rand st.k)
    (⟨0, st.y + c0.2 + 5, f, st.line, st.out, st.k + 1⟩, fitClip P f text)
  else (st, c0)

/-- Screen flush handling (lines 370-382): vertical overflow of the box,
or a pause of more than 2 seconds since the previous word's end (which
adds a `1.5` lag to the outgoing screen's visible-until time), place the
open screen and restart at the box's top-left with a fresh font size
(one random draw). -/
def resetPhase (P : LParams) (rand : ℕ → ℚ) (text : String)
    (start pEnd : ℚ) (swc : LState × (ℚ × ℚ)) : LState × (ℚ × ℚ) :=
  let pause := swc.1.line ≠ [] ∧ start - pEnd > 2
  let lag : ℚ := if pause then 3 / 2 else 0
  if swc.1.y + swc.2.2 > P.height ∨ pause then
    let f := newFontSize P text (rand swc.1.k)
    (⟨0, 0, f, [],
        swc.1.out ++ placeLine swc.1.line pEnd lag, swc.1.k + 1⟩,
      fitClip P f text)
  else swc

/-- One iteration of the caption-type-2 layout loop (lines 353-392) for
word `w` at index `i`: build the clip at the current font size, run the
overflow/pause handling (only when not at the beginning of a line,
`x > 0`), place the clip at the cursor, and — on the last word — place
the still-open screen with a `p_end + 1.0` hold clamped to the video
duration. -/
def layoutStep (P : LParams) (rand : ℕ → ℚ) (st : LState) (i : ℕ)
    (w : TWord) : LState :=
  let text := trimStr w.text
  let start := P.adj w
  let pEnd : ℚ := if i = 0 then 0 else (P.words.getD (i - 1) w).stop
  let c0 := fitClip P st.fs text
  let sc :=
    if 0 < st.x then
      resetPhase P rand text start pEnd (wrapPhase P rand text st c0)
    else (st, c0)
  let pc : PClip := ⟨text, sc.1.x + P.xpos, sc.1.y + P.ypos, start, sc.2.1, sc.2.2⟩
  let line3 := sc.1.line ++ [pc]
  let out3 :=
    if i = P.words.length - 1 ∧ line3 ≠ [] then
      sc.1.out ++ placeLine line3 (if pEnd + 1 < P.dur then pEnd + 1 else P.dur) 0
    else sc.1.out
  ⟨sc.1.x + sc.2.1, sc.1.y, sc.1.fs, line3, out3, sc.1.k⟩

/-- Initial loop state (lines 321-323, 338): cursor at the box's
top-left, font size `fonts[1]`, nothing placed, no random draws. -/
def initState (P : LParams) : LState := ⟨0, 0, P.f1, [], [], 0⟩

/-- The loop state before processing word `i` (so `stateBefore 0` is the
initial state). -/
def stateBefore (P : LParams) (rand : ℕ → ℚ) : ℕ → LState
  | 0 => initState P
  | i + 1 =>
    layoutStep P rand (stateBefore P rand i) i (P.words.getD i dfltW)

/-- The full caption-type-2 layout run over the transcription. -/
def captionLayout2 (P : LParams) (rand : ℕ → ℚ) : LState :=
  stateBefore P rand P.words.length

/-- Concrete run for the C7 witness: two words with a 4-second gap
between the first word's end (1) and the second word's adjusted start
(5); constant metrics 10×10, box 100×100 at (7, 11), video duration 50,
fonts (2, 3, 4), adjusted start taken from the raw start. -/
def c7wP : LParams :=
  ⟨[⟨"hello", 0, 1, 0⟩, ⟨"yo", 5, 6, 0⟩], 100, 100, 7, 11, 50, 2, 3, 4,
    fun _ _ => (10, 10), fun w => w.start⟩

/-- Concrete run for the C9 witness: two one-character words, constant
metrics, two random sources differing from draw 4 on (beyond the
`2 × 2` draws the run can consume). -/
def c9wP : LParams :=
  ⟨[⟨"a", 0, 1, 0⟩, ⟨"b", 1, 2, 0⟩], 100, 100, 7, 11, 50, 2, 3, 4,
    fun _ _ => (10, 10), fun w => w.start⟩

/-- Helper: the cursor fold emits one pair per chunk, pairing each
cursor value (initial cursor, then each chunk's end) with the next
chunk's start, and its final threshold is the last chunk's end. -/
theorem compileGo_eq (c : ℚ) (l : List (ℚ × ℚ)) :
    compileGo c l =
      (List.zip (c :: l.map Prod.snd) (l.map Prod.fst),
        (l.map Prod.snd).getLastD c) := by
  induction l generalizing c with
  | nil => rfl
  | cons p rest ih =>
    obtain ⟨s, e⟩ := p
    simp only [compileGo, ih e, List.map_cons, List.zip_cons_cons]
    rw [List.getLastD_cons]

/-- Helper: the cursor fold drops nothing: one `between` pair is emitted
for every chunk, valid or not. -/
theorem compileGo_length (c : ℚ) (l : List (ℚ × ℚ)) :
    (compileGo c l).1.length = l.length := by
  induction l generalizing c with
  | nil => rfl
  | cons p rest ih =>
    obtain ⟨s, e⟩ := p
    simp [compileGo, ih e]

/-- C1, counterexample.  The claim requires that the compiler emit a
keep-segment only when `removal.start > cursor`, and that for removals
`[(2,4), (4,6)]` the emitted keep-segments be exactly `[0,2)` and
`[6,+∞)` with no keep-segment at `t = 4`.  The code has no such guard:
it emits a `between` pair for every removal unconditionally, so the
compiled output contains an extra degenerate keep-segment `(4,4)`. -/
theorem c1_exact_segments_counterexample :
    compileChunks [(2, 4), (4, 6)] = ([(0, 2), (4, 4)], 6) ∧
      compileChunks [(2, 4), (4, 6)] ≠ ([(0, 2)], 6) := by
  constructor
  · rfl
  · decide

/-- C1, amended.  The compiler processes removals sorted by start
ascending with a cursor initialised to `0`, but emits the pair
`(cursor, removal.start)` for EVERY removal unconditionally (also when
`removal.start ≤ cursor`, yielding a degenerate or inverted segment) and
then sets `cursor := removal.end` (not `max(cursor, removal.end)`);
finally the trailing `gte` threshold is the last removal's end (or `0`
when there are none).  In particular for removals `[(2,4), (4,6)]` the
emitted pairs are `(0,2)` and `(4,4)` with trailing threshold `6`. -/
theorem c1_compile_unconditional_cursor (chunks : List (ℚ × ℚ)) :
    (compileChunks chunks).1 =
        List.zip (0 :: (sortChunks chunks).map Prod.snd)
          ((sortChunks chunks).map Prod.fst) ∧
      (compileChunks chunks).2 = ((sortChunks chunks).map Prod.snd).getLastD 0 ∧
      compileChunks [(2, 4), (4, 6)] = ([(0, 2), (4, 4)], 6) := by
  refine ⟨?_, ?_, rfl⟩
  · rw [compileChunks, compileGo_eq]
  · rw [compileChunks, compileGo_eq]

/-- C2, counterexample.  The claim requires a removal interval with
`end ≤ start` to be rejected with a `ValidationError`.  `remove_chunks`
performs no validation at all: on the invalid interval `(5, 3)` it
returns a normal filter action (no error), with the invalid interval
processed by the same cursor fold — its start becomes the end of the
emitted keep-segment `(0,5)` and its end becomes the `gte` threshold. -/
theorem c2_no_validation_counterexample :
    remove_chunks_plan [(5, 3)] = .filter [(0, 5)] 3 := by
  decide

/-- C2, amended.  Intervals with `end ≤ start` are neither rejected nor
silently dropped nor coerced: `remove_chunks` performs no validation, and
every interval of a non-empty chunk list — valid or not — is processed by
the cursor fold, contributing exactly one emitted `between` pair to the
filter action that is returned. -/
theorem c2_invalid_intervals_processed (chunks : List (ℚ × ℚ))
    (h : chunks ≠ []) :
    remove_chunks_plan chunks =
        .filter (compileChunks chunks).1 (compileChunks chunks).2 ∧
      (compileChunks chunks).1.length = chunks.length := by
  refine ⟨by simp [remove_chunks_plan, h], ?_⟩
  rw [compileChunks, compileGo_length, sortChunks,
    (List.perm_insertionSort pairLE chunks).length_eq]

/-- C2, witness for the amended theorem at the invalid interval `(5,3)`. -/
theorem c2_invalid_intervals_processed_witness :
    remove_chunks_plan [(5, 3)] =
        .filter (compileChunks [(5, 3)]).1 (compileChunks [(5, 3)]).2 ∧
      (compileChunks [(5, 3)]).1.length = [((5 : ℚ), (3 : ℚ))].length :=
  c2_invalid_intervals_processed [(5, 3)] (by decide)

/-- C4.  For every matched silence pair `(start, end)` and padding, the
pair yields the candidate removal `(start + padding, end - padding)`
exactly when `end - start > 2 * padding`; pairs with
`end - start ≤ 2 * padding` yield no candidate, and every surviving pair
of the matched list contributes its padded candidate to the adapter's
output list. -/
theorem c4_padding_filter (pairs : List (ℚ × ℚ)) (padding s e : ℚ) :
    ((s, e) ∈ pairs → e - s > 2 * padding →
        (s + padding, e - padding) ∈ silenceCandidates pairs padding) ∧
      (candidateOf padding (s, e) = some (s + padding, e - padding) ↔
        e - s > 2 * padding) ∧
      (candidateOf padding (s, e) = none ↔ e - s ≤ 2 * padding) := by
  refine ⟨fun hmem hgt => ?_, ?_, ?_⟩
  · rw [silenceCandidates, List.mem_filterMap]
    exact ⟨(s, e), hmem, by simp [candidateOf, hgt]⟩
  · constructor
    · intro h
      by_contra hc
      simp [candidateOf, hc] at h
    · intro h
      simp [candidateOf, h]
  · constructor
    · intro h
      by_contra hc
      simp [candidateOf, not_le.mp hc] at h
    · intro h
      simp [candidateOf, not_lt.mpr h]

/-- C4, witness: the pair `(1, 4)` with padding `1` survives
(`4 - 1 > 2`) and contributes `(2, 3)`; the pair `(1, 3)` with padding
`1` is excluded (`3 - 1 ≤ 2`). -/
theorem c4_padding_filter_witness :
    (2, 3) ∈ silenceCandidates [(1, 4)] 1 ∧ candidateOf 1 (1, 3) = none :=
  ⟨by
      have h := (c4_padding_filter [(1, 4)] 1 1 4).1 (by simp) (by norm_num)
      have he : ((1 : ℚ) + 1, (4 : ℚ) - 1) = ((2 : ℚ), (3 : ℚ)) := by norm_num
      rwa [he] at h,
    (c4_padding_filter [(1, 3)] 1 1 3).2.2.mpr (by norm_num)⟩

/-- C6.  Compiling an empty removals list is signalled as a no-op
pass-through (`copy`, the filter executor is not invoked and the input is
reproduced unchanged), and the same holds in `remove_silence` whenever no
silence candidates survive the padding filter. -/
theorem c6_noop_passthrough :
    remove_chunks_plan [] = .copy ∧
      ∀ (starts ends : List ℚ) (padding : ℚ),
        silenceCandidates (starts.zip ends) padding = [] →
          remove_silence_plan starts ends padding = .copy := by
  refine ⟨rfl, fun starts ends padding h => ?_⟩
  rw [remove_silence_plan]
  split
  · rfl
  · simp only [h]
    rfl

/-- C6, witness: the detector pair `(1, 2)` with padding `1` survives no
padding filter (`2 - 1 ≤ 2`), so `remove_silence` copies the input. -/
theorem c6_noop_passthrough_witness :
    remove_silence_plan [1] [2] 1 = .copy :=
  c6_noop_passthrough.2 [1] [2] 1 (by norm_num [silenceCandidates, candidateOf])

/-- C8, counterexample.  The claim requires the auto-fit step to return
a clip that fits within the maximum width or whose font size stopped
shrinking at a POSITIVE minimum floor.  The code's floor is modifier
`0/10`, i.e. font size `0`: with a measurement collaborator reporting
width `30` for every attempted size (e.g. wide fixed margins) and
`max_width = 10`, no attempt ever fits and the returned clip has font
size `0` — neither disjunct of the claim holds. -/
theorem c8_positive_floor_counterexample :
    ¬((fun _ => (30 : ℚ)) (autoresizeFS (fun _ => (30 : ℚ)) 20 10) < 10 ∨
      0 < autoresizeFS (fun _ => (30 : ℚ)) 20 10) := by
  have h : autoresizeFS (fun _ => (30 : ℚ)) 20 10 = 0 := by
    norm_num [autoresizeFS, autoresizeLoop]
  rw [h]
  norm_num

/-- C8, amended.  For every measurement collaborator, requested size and
maximum width, `_create_font_autoresize` returns a clip whose measured
width fits below the maximum width, or whose font size has reached the
loop's floor — modifier `0`, i.e. font size `0` (not a positive floor). -/
theorem c8_autofit_floor_zero (measureW : ℚ → ℚ) (size maxWidth : ℚ) :
    measureW (autoresizeFS measureW size maxWidth) < maxWidth ∨
      autoresizeFS measureW size maxWidth = 0 := by
  have key : ∀ l : List ℕ, l.getLast? = some 0 →
      measureW (autoresizeLoop measureW size maxWidth l) < maxWidth ∨
        autoresizeLoop measureW size maxWidth l = 0 := by
    intro l
    induction l with
    | nil => intro h; simp at h
    | cons i rest ih =>
      intro hlast
      cases rest with
      | nil =>
        have hi : i = 0 := by simpa using hlast
        refine Or.inr ?_
        subst hi
        show size * ((0 : ℕ) : ℚ) / 10 = 0
        norm_num
      | cons j rest' =>
        have hstep : autoresizeLoop measureW size maxWidth (i :: j :: rest') =
            if measureW (size * i / 10) < maxWidth then size * i / 10
            else autoresizeLoop measureW size maxWidth (j :: rest') := rfl
        rw [hstep]
        by_cases hfit : measureW (size * i / 10) < maxWidth
        · rw [if_pos hfit]
          exact Or.inl hfit
        · rw [if_neg hfit]
          exact ih (by rw [← List.getLast?_cons_cons (a := i)]; exact hlast)
  exact key [10, 9, 8, 7, 6, 5, 4, 3, 2, 1, 0] rfl

/-- Helper: unfolding equation of the cursor fold on a cons cell. -/
theorem compileGo_cons (c s e : ℚ) (rest : List (ℚ × ℚ)) :
    compileGo c ((s, e) :: rest) =
      ((c, s) :: (compileGo e rest).1, (compileGo e rest).2) := rfl

/-- Helper: a time inside the half-open range is a member. -/
theorem segMem_pos {t a b : ℚ} (h1 : a ≤ t) (h2 : t < b) :
    segMem t (a, b) = true :=
  decide_eq_true ⟨h1, h2⟩

/-- Helper: a time outside the half-open range is not a member. -/
theorem segMem_npos {t a b : ℚ} (h : ¬(a ≤ t ∧ t < b)) :
    ¬(segMem t (a, b) = true) := fun hb => h (of_decide_eq_true hb)

/-- Helper: chain invariant of the cursor fold.  For a list of valid
intervals, pairwise separated in order, all starting at or after the
cursor `c`: every time `t ≥ c` is covered by exactly one emitted
keep-segment or removal interval, and no time `t < c` is covered at
all. -/
theorem c3_cover_go (l : List (ℚ × ℚ)) :
    ∀ c t : ℚ, (∀ p ∈ l, p.1 < p.2) → l.Pairwise ordSep →
      (∀ p ∈ l, c ≤ p.1) →
      ((c ≤ t →
          (compileGo c l).1.countP (segMem t) +
              (if (compileGo c l).2 ≤ t then 1 else 0) +
              l.countP (segMem t) = 1) ∧
        (t < c →
          (compileGo c l).1.countP (segMem t) +
              (if (compileGo c l).2 ≤ t then 1 else 0) +
              l.countP (segMem t) = 0)) := by
  induction l with
  | nil =>
    intro c t _ _ _
    constructor
    · intro h
      simp [compileGo, h]
    · intro h
      simp [compileGo, not_le.mpr h]
  | cons p rest ih =>
    obtain ⟨s, e⟩ := p
    intro c t hv hpw hlb
    have hse : s < e := hv (s, e) (List.mem_cons_self _ _)
    have hcs : c ≤ s := hlb (s, e) (List.mem_cons_self _ _)
    have hpw' := List.pairwise_cons.mp hpw
    have ihr := ih e t (fun q hq => hv q (List.mem_cons_of_mem _ hq)) hpw'.2
      (fun q hq => hpw'.1 q hq)
    rw [compileGo_cons]
    dsimp only
    constructor
    · intro hct
      rcases lt_or_le t s with h1 | h1
      · rw [List.countP_cons_of_pos _ _ (segMem_pos hct h1),
          List.countP_cons_of_neg _ _ (segMem_npos (by rintro ⟨h, -⟩; linarith))]
        have h0 := ihr.2 (by linarith)
        omega
      · rcases lt_or_le t e with h2 | h2
        · rw [List.countP_cons_of_neg _ _ (segMem_npos (by rintro ⟨-, h⟩; linarith)),
            List.countP_cons_of_pos _ _ (segMem_pos h1 h2)]
          have h0 := ihr.2 h2
          omega
        · rw [List.countP_cons_of_neg _ _ (segMem_npos (by rintro ⟨-, h⟩; linarith)),
            List.countP_cons_of_neg _ _ (segMem_npos (by rintro ⟨-, h⟩; linarith))]
          have h0 := ihr.1 h2
          omega
    · intro htc
      rw [List.countP_cons_of_neg _ _ (segMem_npos (by rintro ⟨h, -⟩; linarith)),
        List.countP_cons_of_neg _ _ (segMem_npos (by rintro ⟨h, -⟩; linarith))]
      have h0 := ihr.2 (by linarith)
      omega

/-- C3.  For every set of pairwise non-overlapping removal intervals
within `[0, duration]`, the keep-segments emitted by the compiler
together with the removal intervals exactly partition `[0, duration]`:
every time point of `[0, duration]` lies in exactly one emitted
keep-segment or removal interval (half-open reading, the trailing `gte`
read as `[threshold, +∞)`). -/
theorem c3_keep_removal_partition (chunks : List (ℚ × ℚ)) (duration t : ℚ)
    (hvalid : ∀ p ∈ chunks, 0 ≤ p.1 ∧ p.1 < p.2 ∧ p.2 ≤ duration)
    (hdisj : chunks.Pairwise intervalDisjoint)
    (ht0 : 0 ≤ t) (htd : t ≤ duration) :
    keptCount t (compileChunks chunks) + removalCount t chunks = 1 := by
  have hperm : List.Perm (sortChunks chunks) chunks :=
    List.perm_insertionSort pairLE chunks
  have hsorted : List.Pairwise pairLE (sortChunks chunks) :=
    List.sorted_insertionSort pairLE chunks
  have hdisj' : (sortChunks chunks).Pairwise intervalDisjoint :=
    (hperm.pairwise_iff (fun {a b} h => Or.symm h)).mpr hdisj
  have hvalid' : ∀ p ∈ sortChunks chunks, 0 ≤ p.1 ∧ p.1 < p.2 ∧ p.2 ≤ duration :=
    fun p hp => hvalid p (hperm.mem_iff.mp hp)
  have hsep : (sortChunks chunks).Pairwise ordSep := by
    have hand := hsorted.and hdisj'
    refine hand.imp_of_mem ?_
    intro a b ha hb hab
    rcases hab.2 with h | h
    · exact h
    · exfalso
      have hb2 : b.1 < b.2 := (hvalid' b hb).2.1
      rcases hab.1 with h1 | ⟨h1, -⟩ <;> linarith
  have hmain := (c3_cover_go (sortChunks chunks) 0 t
    (fun p hp => (hvalid' p hp).2.1) hsep (fun p hp => (hvalid' p hp).1)).1 ht0
  have hcnt : chunks.countP (segMem t) = (sortChunks chunks).countP (segMem t) :=
    (hperm.countP_eq (segMem t)).symm
  rw [keptCount, removalCount, compileChunks, hcnt]
  omega

/-- C3, witness at the adjacent removals `[(2,4), (4,6)]` on duration
`10`, `t = 3`. -/
theorem c3_keep_removal_partition_witness :
    keptCount 3 (compileChunks [(2, 4), (4, 6)]) + removalCount 3 [(2, 4), (4, 6)] = 1 :=
  c3_keep_removal_partition [(2, 4), (4, 6)] 10 3 (by decide) (by decide)
    (by decide) (by decide)

/-- C5, counterexample.  The claim asserts
`normalize(word).adjustedStart ≤ word.end` for EVERY word.  A (malformed
but representable) word record with `start = 5 > 3 = end` and two
characters has `duration = -2 ≤ log_8 2 = maxDuration`, so the code keeps
`start` unchanged and returns an adjusted start of `5 > 3 = end`. -/
theorem c5_adjusted_start_bound_counterexample :
    (wordTimingAdjusted 2 5 3).1 > 3 := by
  have hlog : (0 : ℝ) ≤ Real.logb 8 (2 : ℕ) :=
    Real.logb_nonneg (by norm_num) (by norm_num)
  rw [wordTimingAdjusted, if_neg (by push_neg; linarith)]
  norm_num

/-- C5, amended.  For every word with at least one character and
`start ≤ end`, the normalizer computes `maxDuration = log_8 wordLen`
(`log_8 1 = 0`) and satisfies: the adjusted start is at most `end`; if
`end - start ≤ maxDuration` the start is returned unchanged; otherwise
the adjusted start is `end - maxDuration`.  (For records with
`start > end` the bound fails — see the counterexample.) -/
theorem c5_normalization_bound (wordLen : ℕ) (start stop : ℝ)
    (hlen : 1 ≤ wordLen) (hord : start ≤ stop) :
    (wordTimingAdjusted wordLen start stop).1 ≤ stop ∧
      (stop - start ≤ Real.logb 8 wordLen →
        (wordTimingAdjusted wordLen start stop).1 = start) ∧
      (stop - start > Real.logb 8 wordLen →
        (wordTimingAdjusted wordLen start stop).1 = stop - Real.logb 8 wordLen) := by
  have hlog : (0 : ℝ) ≤ Real.logb 8 wordLen :=
    Real.logb_nonneg (by norm_num) (by exact_mod_cast hlen)
  by_cases h : stop - start > Real.logb 8 wordLen
  · rw [wordTimingAdjusted, if_pos h]
    exact ⟨by simpa using hlog, fun hc => absurd h (not_lt.mpr hc), fun _ => rfl⟩
  · rw [wordTimingAdjusted, if_neg h]
    exact ⟨hord, fun _ => rfl, fun hc => absurd hc h⟩

/-- C5, witness at the spec's scenario 4: the one-character word
`{start: 0, end: 1}` has `maxDuration = log_8 1 = 0`, and since
`1 - 0 > 0` its adjusted start is `1 - 0 = end`. -/
theorem c5_normalization_bound_witness :
    (wordTimingAdjusted 1 0 1).1 ≤ 1 ∧
      ((1 : ℝ) - 0 ≤ Real.logb 8 (1 : ℕ) → (wordTimingAdjusted 1 0 1).1 = 0) ∧
      ((1 : ℝ) - 0 > Real.logb 8 (1 : ℕ) →
        (wordTimingAdjusted 1 0 1).1 = 1 - Real.logb 8 (1 : ℕ)) :=
  c5_normalization_bound 1 0 1 le_rfl (by norm_num)

/-- Helper: merging never changes a record's start time. -/
theorem emitVal_start (w : TWord) (rest : List TWord) :
    (emitVal w rest).start = w.start := by
  cases rest with
  | nil => rfl
  | cons x _ =>
    rw [emitVal]
    split <;> rfl

/-- Helper: the mutation phase preserves the list of start times. -/
theorem phase1_map_start (l : List TWord) :
    (phase1 l).map TWord.start = l.map TWord.start := by
  induction l with
  | nil => rfl
  | cons w rest ih => simp [phase1, emitVal_start, ih]

/-- Helper: every post-mutation record's start occurs among the original
start times. -/
theorem mem_phase1_start {x : TWord} {l : List TWord} (hx : x ∈ phase1 l) :
    x.start ∈ l.map TWord.start := by
  have h := List.mem_map_of_mem TWord.start hx
  rwa [phase1_map_start] at h

/-- Helper: every marked record's start occurs among the suffix's start
times. -/
theorem mem_markedTail_start {m : TWord} :
    ∀ {l : List TWord}, m ∈ markedTail l → m.start ∈ l.map TWord.start := by
  intro l
  induction l with
  | nil => intro h; simp [markedTail] at h
  | cons w rest ih =>
    intro hm
    rw [markedTail] at hm
    by_cases hb : hyphB w
    · rw [if_pos hb] at hm
      rcases List.mem_cons.mp hm with h | h
      · rw [h, emitVal_start]
        exact List.mem_cons_self _ _
      · exact List.mem_cons_of_mem _ (ih h)
    · rw [if_neg hb] at hm
      exact List.mem_cons_of_mem _ (ih hm)

/-- Helper: on a duplicate-free list, iterated `list.remove` of a set of
values removes exactly the elements equal to one of those values. -/
theorem foldl_erase_eq_filter (M : List TWord) :
    ∀ A : List TWord, A.Nodup →
      M.foldl List.erase A = A.filter (fun x => decide (x ∉ M)) := by
  induction M with
  | nil =>
    intro A _
    simp
  | cons v M' ih =>
    intro A hA
    rw [List.foldl_cons, ih (A.erase v) (hA.erase v),
      hA.erase_eq_filter v, List.filter_filter]
    refine List.filter_congr ?_
    intro x _
    by_cases h1 : x = v
    · subst h1
      simp
    · by_cases h2 : x ∈ M' <;> simp [h1, h2]

/-- Helper: filtering the marked records out of the mutated suffix gives
exactly the claim-side suffix, provided start times are duplicate-free. -/
theorem filter_markedTail_eq_specMergeTail :
    ∀ rest : List TWord, (rest.map TWord.start).Nodup →
      (phase1 rest).filter (fun x => decide (x ∉ markedTail rest)) =
        specMergeTail rest := by
  intro rest
  induction rest with
  | nil =>
    intro _
    rfl
  | cons u rest' ih =>
    intro h
    rw [List.map_cons, List.nodup_cons] at h
    obtain ⟨hu, h'⟩ := h
    rw [phase1, markedTail, specMergeTail]
    by_cases hb : hyphB u
    · rw [if_pos hb, if_pos hb]
      rw [List.filter_cons_of_neg (by simp)]
      have hcongr : ∀ x ∈ phase1 rest',
          decide (x ∉ emitVal u rest' :: markedTail rest') =
            decide (x ∉ markedTail rest') := by
        intro x hx
        have hne : x ≠ emitVal u rest' := by
          intro he
          apply hu
          rw [← emitVal_start u rest', ← he]
          exact mem_phase1_start hx
        by_cases h2 : x ∈ markedTail rest' <;>
          simp [List.mem_cons, hne, h2]
      rw [List.filter_congr hcongr]
      exact ih h'
    · rw [if_neg hb, if_neg hb]
      have hhead : emitVal u rest' ∉ markedTail rest' := by
        intro hmem
        apply hu
        rw [← emitVal_start u rest']
        exact mem_markedTail_start hmem
      rw [List.filter_cons_of_pos (by simpa using hhead)]
      exact congrArg _ (ih h')

/-- C10, amended.  Provided the transcription's start times are pairwise
distinct (so no two records carry identical field values, before or
after mutation), the preprocessing behaves as the claim states: every
word after the first whose text begins with `"-"` is removed from the
transcription and merged into its predecessor — the predecessor's text
becomes the concatenation of the two texts and its end time is replaced
by the removed word's end time — while all other words are unchanged and
the relative order of the remaining words is preserved (the behaviour
captured by `specMerge`).  Without that proviso `list.remove` can delete
an unrelated value-equal earlier record instead — see the
counterexample. -/
theorem c10_hyphen_merge (l : List TWord)
    (h : (l.map TWord.start).Nodup) :
    mergeHyphens l = specMerge l := by
  have hnodA : (phase1 l).Nodup := by
    have hmap : ((phase1 l).map TWord.start).Nodup := by
      rw [phase1_map_start]
      exact h
    exact List.Nodup.of_map _ hmap
  cases l with
  | nil => rfl
  | cons w rest =>
    rw [List.map_cons, List.nodup_cons] at h
    obtain ⟨hw, h'⟩ := h
    rw [mergeHyphens, markedOf, foldl_erase_eq_filter _ _ hnodA, phase1,
      specMerge]
    have hhead : emitVal w rest ∉ markedTail rest := by
      intro hmem
      apply hw
      rw [← emitVal_start w rest]
      exact mem_markedTail_start hmem
    rw [List.filter_cons_of_pos (by simpa using hhead)]
    exact congrArg _ (filter_markedTail_eq_specMergeTail rest h')

/-- C10, witness for the amended theorem: on records with distinct start
times the code and the claim-side transformation agree; here the hyphen
fragment `"-there"` is merged into `"hi"` and removed. -/
theorem c10_hyphen_merge_witness :
    mergeHyphens [⟨"hi", 0, 1, 0⟩, ⟨"-there", 2, 3, 0⟩] =
      specMerge [⟨"hi", 0, 1, 0⟩, ⟨"-there", 2, 3, 0⟩] :=
  c10_hyphen_merge [⟨"hi", 0, 1, 0⟩, ⟨"-there", 2, 3, 0⟩] (by decide)

/-- C10, counterexample.  With duplicate record values the claim fails:
on `[("-b",0,2), ("y",3,4), ("z",5,6), ("-b",0,2)]` the final `"-b"`
fragment is marked, but `transcription.remove` deletes the FIRST
value-equal record — the untouched leading `"-b"` word — so the marked
hyphen word survives in the output and the remaining words' relative
order is not preserved (the claim-side result `specMerge` differs). -/
theorem c10_remove_by_value_counterexample :
    mergeHyphens [⟨"-b", 0, 2, 0⟩, ⟨"y", 3, 4, 0⟩, ⟨"z", 5, 6, 0⟩, ⟨"-b", 0, 2, 0⟩] =
        [⟨"y", 3, 4, 0⟩, ⟨"z-b", 5, 2, 0⟩, ⟨"-b", 0, 2, 0⟩] ∧
      specMerge [⟨"-b", 0, 2, 0⟩, ⟨"y", 3, 4, 0⟩, ⟨"z", 5, 6, 0⟩, ⟨"-b", 0, 2, 0⟩] =
        [⟨"-b", 0, 2, 0⟩, ⟨"y", 3, 4, 0⟩, ⟨"z-b", 5, 2, 0⟩] ∧
      mergeHyphens [⟨"-b", 0, 2, 0⟩, ⟨"y", 3, 4, 0⟩, ⟨"z", 5, 6, 0⟩, ⟨"-b", 0, 2, 0⟩] ≠
        specMerge [⟨"-b", 0, 2, 0⟩, ⟨"y", 3, 4, 0⟩, ⟨"z", 5, 6, 0⟩, ⟨"-b", 0, 2, 0⟩] := by
  refine ⟨by decide, by decide, by decide⟩

/-- Helper: horizontal wrapping never touches the open screen's clips or
the emitted fragments, and consumes at most one random draw. -/
theorem wrapPhase_inv (P : LParams) (rand : ℕ → ℚ) (text : String)
    (st : LState) (c0 : ℚ × ℚ) :
    (wrapPhase P rand text st c0).1.line = st.line ∧
      (wrapPhase P rand text st c0).1.out = st.out ∧
      st.k ≤ (wrapPhase P rand text st c0).1.k ∧
      (wrapPhase P rand text st c0).1.k ≤ st.k + 1 := by
  rw [wrapPhase]
  split <;> simp

/-- Helper: horizontal wrapping moves the cursor to the line start or
leaves it in place. -/
theorem wrapPhase_x (P : LParams) (rand : ℕ → ℚ) (text : String)
    (st : LState) (c0 : ℚ × ℚ) :
    (wrapPhase P rand text st c0).1.x = 0 ∨
      (wrapPhase P rand text st c0).1.x = st.x := by
  rw [wrapPhase]
  split <;> simp

/-- Helper: the flush step either resets the cursor to the top-left or
leaves the state alone, and consumes at most one random draw. -/
theorem resetPhase_k (P : LParams) (rand : ℕ → ℚ) (text : String)
    (start pEnd : ℚ) (swc : LState × (ℚ × ℚ)) :
    (swc.1.k ≤ (resetPhase P rand text start pEnd swc).1.k ∧
      (resetPhase P rand text start pEnd swc).1.k ≤ swc.1.k + 1) ∧
      ((resetPhase P rand text start pEnd swc).1.x = 0 ∨
        resetPhase P rand text start pEnd swc = swc) := by
  rw [resetPhase]
  split
  · exact ⟨⟨Nat.le_succ _, le_rfl⟩, Or.inl rfl⟩
  · exact ⟨⟨le_rfl, Nat.le_succ _⟩, Or.inr rfl⟩

/-- Helper: when the open screen is non-empty and the pause since the
previous word's end exceeds 2 seconds, the flush step places the screen
with the extra `1.5` lag and restarts at the top-left with a fresh font
size. -/
theorem resetPhase_of_pause (P : LParams) (rand : ℕ → ℚ) (text : String)
    (start pEnd : ℚ) (swc : LState × (ℚ × ℚ))
    (hl : swc.1.line ≠ []) (hgap : start - pEnd > 2) :
    resetPhase P rand text start pEnd swc =
      (⟨0, 0, newFontSize P text (rand swc.1.k), [],
          swc.1.out ++ placeLine swc.1.line pEnd (3 / 2), swc.1.k + 1⟩,
        fitClip P (newFontSize P text (rand swc.1.k)) text) := by
  have hpause : swc.1.line ≠ [] ∧ start - pEnd > 2 := ⟨hl, hgap⟩
  rw [resetPhase]
  rw [if_pos (Or.inr hpause), if_pos hpause]

/-- Helper: the pause-flush behaviour of one loop iteration.  For any
iteration after the first (`i ≠ 0`) that starts mid-line (`x > 0`) with
a non-empty open screen, if the word's adjusted start is more than 2
seconds after the previous word's end, then: the open screen is placed
with the extra `1.5` lag (its fragments extend the output, every
fragment's visible-until being the previous word's end `+ 0.5 + 1.5`),
the vertical cursor returns to `0`, and the word itself is placed alone
at the box's top-left, the horizontal cursor advancing by its width. -/
theorem layoutStep_pause_flush (P : LParams) (rand : ℕ → ℚ) (st : LState)
    (i : ℕ) (w : TWord) (hx : 0 < st.x) (hline : st.line ≠ []) (hi : i ≠ 0)
    (hgap : P.adj w - (P.words.getD (i - 1) w).stop > 2) :
    (layoutStep P rand st i w).out.take (st.out.length + st.line.length) =
        st.out ++ placeLine st.line ((P.words.getD (i - 1) w).stop) (3 / 2) ∧
      (layoutStep P rand st i w).y = 0 ∧
      (layoutStep P rand st i w).line.length = 1 ∧
      ((layoutStep P rand st i w).line.headD dfltClip).px = P.xpos ∧
      ((layoutStep P rand st i w).line.headD dfltClip).py = P.ypos ∧
      (layoutStep P rand st i w).x =
        ((layoutStep P rand st i w).line.headD dfltClip).w := by
  simp only [layoutStep, if_neg hi, if_pos hx]
  set swc := wrapPhase P rand (trimStr w.text) st (fitClip P st.fs (trimStr w.text))
    with hswc
  have hwrapI := wrapPhase_inv P rand (trimStr w.text) st
    (fitClip P st.fs (trimStr w.text))
  rw [← hswc] at hwrapI
  have hl2 : swc.1.line ≠ [] := by rw [hwrapI.1]; exact hline
  have hreset := resetPhase_of_pause P rand (trimStr w.text) (P.adj w)
    ((P.words.getD (i - 1) w).stop) swc hl2 hgap
  rw [hreset, hwrapI.1, hwrapI.2.1]
  have hlen : (st.out ++
      placeLine st.line ((P.words.getD (i - 1) w).stop) (3 / 2)).length =
      st.out.length + st.line.length := by
    simp [placeLine]
  refine ⟨?_, rfl, by simp, by simp, by simp, by simp⟩
  by_cases hlast : i = P.words.length - 1
  · rw [if_pos (by simp [hlast])]
    exact List.take_left' hlen
  · rw [if_neg (by simp [hlast])]
    rw [← hlen]
    exact List.take_length _

/-- Helper: the auto-fitted clip inherits a positive width from the
metrics collaborator. -/
theorem fitClip_w_pos (P : LParams) (fs : ℚ) (text : String)
    (hpos : ∀ t f, 0 < (P.measure t f).1) : 0 < (fitClip P fs text).1 := by
  rw [fitClip]
  exact hpos _ _

/-- Helper: the clip returned by the overflow/pause handling is always an
auto-fitted clip for the current word. -/
theorem resetWrap_snd_fit (P : LParams) (rand : ℕ → ℚ) (text : String)
    (start pEnd : ℚ) (st : LState) (fs0 : ℚ) :
    ∃ f, (resetPhase P rand text start pEnd
        (wrapPhase P rand text st (fitClip P fs0 text))).2 = fitClip P f text := by
  rw [resetPhase]
  split
  · exact ⟨_, rfl⟩
  · rw [wrapPhase]
    split
    · exact ⟨_, rfl⟩
    · exact ⟨fs0, rfl⟩

/-- Helper: the overflow/pause handling never moves the cursor left of
the box edge. -/
theorem resetWrap_x_nonneg (P : LParams) (rand : ℕ → ℚ) (text : String)
    (start pEnd : ℚ) (st : LState) (c0 : ℚ × ℚ) (hx : 0 ≤ st.x) :
    0 ≤ (resetPhase P rand text start pEnd
        (wrapPhase P rand text st c0)).1.x := by
  have hw : 0 ≤ (wrapPhase P rand text st c0).1.x := by
    rcases wrapPhase_x P rand text st c0 with h | h
    · exact le_of_eq h.symm
    · rw [h]
      exact hx
  rcases (resetPhase_k P rand text start pEnd
      (wrapPhase P rand text st c0)).2 with h | h
  · exact le_of_eq h.symm
  · rw [h]
    exact hw

/-- Helper: every iteration appends the word's clip to the open screen
and advances the cursor by its (positive) width, so after any iteration
the cursor is strictly inside the line and the screen is non-empty. -/
theorem layoutStep_progress (P : LParams) (rand : ℕ → ℚ) (st : LState)
    (i : ℕ) (w : TWord) (hpos : ∀ t f, 0 < (P.measure t f).1)
    (hx : 0 ≤ st.x) :
    0 < (layoutStep P rand st i w).x ∧ (layoutStep P rand st i w).line ≠ [] := by
  simp only [layoutStep]
  by_cases h0 : 0 < st.x
  · rw [if_pos h0]
    obtain ⟨f, hf⟩ := resetWrap_snd_fit P rand (trimStr w.text) (P.adj w)
      (if i = 0 then 0 else (P.words.getD (i - 1) w).stop) st st.fs
    constructor
    · show 0 < _ + _
      rw [hf]
      exact add_pos_of_nonneg_of_pos
        (resetWrap_x_nonneg P rand _ _ _ st _ hx)
        (fitClip_w_pos P f _ hpos)
    · simp
  · rw [if_neg h0]
    constructor
    · exact add_pos_of_nonneg_of_pos hx
        (fitClip_w_pos P st.fs (trimStr w.text) hpos)
    · simp

/-- Helper: run-level invariant — from the second word on, every
iteration begins mid-line with a non-empty open screen (given a metrics
collaborator reporting positive widths). -/
theorem stateBefore_progress (P : LParams) (rand : ℕ → ℚ)
    (hpos : ∀ t f, 0 < (P.measure t f).1) :
    ∀ i, 0 ≤ (stateBefore P rand i).x ∧
      (1 ≤ i → 0 < (stateBefore P rand i).x ∧
        (stateBefore P rand i).line ≠ []) := by
  intro i
  induction i with
  | zero => exact ⟨le_of_eq rfl, fun h => absurd h (by omega)⟩
  | succ n ih =>
    have hstep := layoutStep_progress P rand (stateBefore P rand n) n
      (P.words.getD n dfltW) hpos ih.1
    exact ⟨le_of_lt hstep.1, fun _ => hstep⟩

/-- C7.  In the multi-line emphasis policy, for every word after the
first, whenever the gap between that word's adjusted start and the
previous word's end exceeds 2 seconds, the accumulated screen is flushed
with the extra `1.5`-second lag added to its visible-until time
(`previous end + 0.5 + 1.5`), and layout restarts at the box's top-left:
the vertical cursor returns to `0` and the word is placed alone at
position `(xpos, ypos)`, the horizontal cursor advancing by its width.
(Stated for a metrics collaborator reporting positive widths, as the
real `TextClip` with its fixed margins does.) -/
theorem c7_pause_flush_lag (P : LParams) (rand : ℕ → ℚ) (i : ℕ)
    (hpos : ∀ t f, 0 < (P.measure t f).1)
    (h1 : 1 ≤ i) (h2 : i < P.words.length)
    (hgap : P.adj (P.words.getD i dfltW) -
      (P.words.getD (i - 1) (P.words.getD i dfltW)).stop > 2) :
    (stateBefore P rand (i + 1)).out.take
        ((stateBefore P rand i).out.length +
          (stateBefore P rand i).line.length) =
      (stateBefore P rand i).out ++
        placeLine (stateBefore P rand i).line
          ((P.words.getD (i - 1) (P.words.getD i dfltW)).stop) (3 / 2) ∧
      (stateBefore P rand (i + 1)).y = 0 ∧
      (stateBefore P rand (i + 1)).line.length = 1 ∧
      ((stateBefore P rand (i + 1)).line.headD dfltClip).px = P.xpos ∧
      ((stateBefore P rand (i + 1)).line.headD dfltClip).py = P.ypos ∧
      (stateBefore P rand (i + 1)).x =
        ((stateBefore P rand (i + 1)).line.headD dfltClip).w := by
  have hinv := (stateBefore_progress P rand hpos i).2 h1
  exact layoutStep_pause_flush P rand (stateBefore P rand i) i
    (P.words.getD i dfltW) hinv.1 hinv.2 (by omega) hgap

/-- C7, witness at `c7wP` with a constant random source: processing the
second word flushes the first word's screen with the `1.5` lag and
restarts at the box's top-left. -/
theorem c7_pause_flush_lag_witness :
    (stateBefore c7wP (fun _ => 0) 2).out.take
        ((stateBefore c7wP (fun _ => 0) 1).out.length +
          (stateBefore c7wP (fun _ => 0) 1).line.length) =
      (stateBefore c7wP (fun _ => 0) 1).out ++
        placeLine (stateBefore c7wP (fun _ => 0) 1).line
          ((c7wP.words.getD 0 (c7wP.words.getD 1 dfltW)).stop) (3 / 2) ∧
      (stateBefore c7wP (fun _ => 0) 2).y = 0 ∧
      (stateBefore c7wP (fun _ => 0) 2).line.length = 1 ∧
      ((stateBefore c7wP (fun _ => 0) 2).line.headD dfltClip).px = c7wP.xpos ∧
      ((stateBefore c7wP (fun _ => 0) 2).line.headD dfltClip).py = c7wP.ypos ∧
      (stateBefore c7wP (fun _ => 0) 2).x =
        ((stateBefore c7wP (fun _ => 0) 2).line.headD dfltClip).w :=
  c7_pause_flush_lag c7wP (fun _ => 0) 1
    (fun t f => by norm_num [c7wP]) (by norm_num) (by norm_num [c7wP])
    (by norm_num [c7wP, dfltW])

/-- Helper: the wrap step depends on the random source only through the
draw at the current cursor. -/
theorem wrapPhase_rand_congr (P : LParams) (r1 r2 : ℕ → ℚ) (text : String)
    (st : LState) (c0 : ℚ × ℚ) (h : r1 st.k = r2 st.k) :
    wrapPhase P r1 text st c0 = wrapPhase P r2 text st c0 := by
  simp only [wrapPhase, h]

/-- Helper: the flush step depends on the random source only through the
draw at its incoming cursor. -/
theorem resetPhase_rand_congr (P : LParams) (r1 r2 : ℕ → ℚ) (text : String)
    (start pEnd : ℚ) (swc : LState × (ℚ × ℚ)) (h : r1 swc.1.k = r2 swc.1.k) :
    resetPhase P r1 text start pEnd swc = resetPhase P r2 text start pEnd swc := by
  simp only [resetPhase, h]

/-- Helper: one iteration depends on the random source only through the
draws at the two indices starting at the state's cursor. -/
theorem layoutStep_rand_congr (P : LParams) (r1 r2 : ℕ → ℚ) (st : LState)
    (i : ℕ) (w : TWord)
    (h : ∀ j, st.k ≤ j → j ≤ st.k + 1 → r1 j = r2 j) :
    layoutStep P r1 st i w = layoutStep P r2 st i w := by
  have hw : wrapPhase P r1 (trimStr w.text) st (fitClip P st.fs (trimStr w.text)) =
      wrapPhase P r2 (trimStr w.text) st (fitClip P st.fs (trimStr w.text)) :=
    wrapPhase_rand_congr P r1 r2 _ st _ (h st.k le_rfl (Nat.le_succ _))
  have hkb := wrapPhase_inv P r1 (trimStr w.text) st
    (fitClip P st.fs (trimStr w.text))
  have hr : resetPhase P r1 (trimStr w.text) (P.adj w)
      (if i = 0 then 0 else (P.words.getD (i - 1) w).stop)
      (wrapPhase P r1 (trimStr w.text) st (fitClip P st.fs (trimStr w.text))) =
      resetPhase P r2 (trimStr w.text) (P.adj w)
        (if i = 0 then 0 else (P.words.getD (i - 1) w).stop)
        (wrapPhase P r2 (trimStr w.text) st (fitClip P st.fs (trimStr w.text))) := by
    rw [← hw]
    exact resetPhase_rand_congr P r1 r2 _ _ _ _ (h _ hkb.2.2.1 hkb.2.2.2)
  simp only [layoutStep, hr]

/-- Helper: one iteration consumes at most two random draws. -/
theorem layoutStep_k_succ (P : LParams) (rand : ℕ → ℚ) (st : LState)
    (i : ℕ) (w : TWord) :
    (layoutStep P rand st i w).k ≤ st.k + 2 := by
  simp only [layoutStep]
  by_cases h0 : 0 < st.x
  · rw [if_pos h0]
    have hk1 := (wrapPhase_inv P rand (trimStr w.text) st
      (fitClip P st.fs (trimStr w.text))).2.2.2
    have hk2 := (resetPhase_k P rand (trimStr w.text) (P.adj w)
      (if i = 0 then 0 else (P.words.getD (i - 1) w).stop)
      (wrapPhase P rand (trimStr w.text) st
        (fitClip P st.fs (trimStr w.text)))).1.2
    show (resetPhase P rand (trimStr w.text) (P.adj w)
      (if i = 0 then 0 else (P.words.getD (i - 1) w).stop)
      (wrapPhase P rand (trimStr w.text) st
        (fitClip P st.fs (trimStr w.text)))).1.k ≤ st.k + 2
    omega
  · rw [if_neg h0]
    show st.k ≤ st.k + 2
    omega

/-- C9.  The multi-line layout run is deterministic: it is a pure
function of the word sequence, geometry, metrics collaborator, timing
adjuster and the seeded random source, and it consumes at most two draws
per word — two random sources agreeing on the first `2 × (number of
words)` draws produce identical runs (states, fragments and ordering). -/
theorem c9_deterministic_layout (P : LParams) (r1 r2 : ℕ → ℚ)
    (h : ∀ j, j < 2 * P.words.length → r1 j = r2 j) :
    captionLayout2 P r1 = captionLayout2 P r2 := by
  have key : ∀ i, i ≤ P.words.length →
      stateBefore P r1 i = stateBefore P r2 i ∧
        (stateBefore P r1 i).k ≤ 2 * i := by
    intro i
    induction i with
    | zero => exact fun _ => ⟨rfl, Nat.le.refl⟩
    | succ n ih =>
      intro hn
      obtain ⟨heq, hk⟩ := ih (by omega)
      constructor
      · show layoutStep P r1 (stateBefore P r1 n) n (P.words.getD n dfltW) =
          layoutStep P r2 (stateBefore P r2 n) n (P.words.getD n dfltW)
        rw [← heq]
        exact layoutStep_rand_congr P r1 r2 _ n _
          (fun j hj1 hj2 => h j (by omega))
      · show (layoutStep P r1 (stateBefore P r1 n) n (P.words.getD n dfltW)).k ≤
          2 * (n + 1)
        have hs := layoutStep_k_succ P r1 (stateBefore P r1 n) n
          (P.words.getD n dfltW)
        omega
  exact (key P.words.length le_rfl).1

/-- C9, witness: on `c9wP`, random sources agreeing on the first four
draws (but differing afterwards) give identical layout runs. -/
theorem c9_deterministic_layout_witness :
    captionLayout2 c9wP (fun j => if j < 4 then 0 else 7) =
      captionLayout2 c9wP (fun j => if j < 4 then 0 else 9) :=
  c9_deterministic_layout c9wP _ _
    (fun j hj => by rw [if_pos (show j < 4 from hj), if_pos (show j < 4 from hj)])
